import Mathlib

set_option autoImplicit false
set_option linter.unusedVariables false

/-!
Verification of the agentlink core pipeline (repository `caelinsutch/agentlink`,
directory `src/core`): inheritance-chain detection, the merge engine, the
mapping builder, repair, link-status classification, and the watch daemon's
debounce.  Each TypeScript function under scrutiny is shallowly embedded as an
executable Lean definition; filesystem state is passed explicitly.
-/

namespace Agentlink

/-! ## Markdown chain merge (`src/core/merge.ts`) -/

/-- Content of the `SEPARATOR` constant in `src/core/merge.ts`. -/
def SEPARATOR : String := "\n\n---\n\n"

/-- Whitespace test used by JavaScript's `trim`/`trimStart`/`trimEnd`,
restricted to the ASCII whitespace characters that occur in the repository's
data (space, tab, newline, carriage return). -/
def isJsWhitespace (c : Char) : Bool :=
  c == ' ' || c == '\t' || c == '\n' || c == '\r'

/-- JavaScript `String.prototype.trimStart`: drop leading whitespace. -/
def jsTrimStart (s : String) : String :=
  ⟨s.data.dropWhile isJsWhitespace⟩

/-- JavaScript `String.prototype.trimEnd`: drop trailing whitespace. -/
def jsTrimEnd (s : String) : String :=
  ⟨(s.data.reverse.dropWhile isJsWhitespace).reverse⟩

/-- JavaScript `String.prototype.trim`: drop whitespace at both ends. -/
def jsTrim (s : String) : String :=
  jsTrimStart (jsTrimEnd s)

/-- Shallow embedding of `mergeMarkdownChain` (`src/core/merge.ts`, lines
32-53).  Each list element stands for one entry of `filePaths`: `none` when
`pathExists` is false for that path (the file is missing), `some content` when
the file exists and reading it yields `content`.  Missing files and
whitespace-only contents are skipped; the first surviving content is taken
verbatim, and every further one is joined by trimming the accumulated result's
trailing whitespace and the new content's leading whitespace around the fixed
separator. -/
def mergeMarkdownChain (files : List (Option String)) : String :=
  files.foldl
    (fun result file? =>
      match file? with
      | none => result
      | some content =>
        if jsTrim content = "" then result
        else if result = "" then content
        else jsTrimEnd result ++ SEPARATOR ++ jsTrimStart content)
    ""

/-! ## Watch daemon debounce (`src/core/watch.ts`) -/

/-- Shallow embedding of the timer protocol of `createDebounce`
(`src/core/watch.ts`, lines 89-96).  The input is the nondecreasing list of
arrival times of the events pushed through the debouncer; the output is the
list of times at which the debounced handler actually fires.  An event at time
`t` schedules a timer for `t + delay`; a later event arriving strictly before
`t + delay` cancels that timer (`clearTimeout`) and schedules its own, while an
event arriving at or after `t + delay` finds the timer already fired. -/
def debounceFireTimes (delay : Nat) : List Nat → List Nat
  | [] => []
  | [t] => [t + delay]
  | t :: t' :: rest =>
    if t' < t + delay then debounceFireTimes delay (t' :: rest)
    else (t + delay) :: debounceFireTimes delay (t' :: rest)

/-- The two state flags of the watch daemon (`src/core/watch.ts`, lines
18-23): `isProcessing` marks a rebuild in flight, `pendingRebuild` marks a
change that arrived while busy. -/
structure WatchFlags where
  isProcessing : Bool
  pendingRebuild : Bool
deriving DecidableEq, Repr

/-- Shallow embedding of one completed invocation of `handleChange`
(`src/core/watch.ts`, lines 113-143), abstracting the rebuild itself: if a
rebuild is in flight the invocation only sets `pendingRebuild` and runs zero
rebuild cycles; otherwise it runs one cycle, and one more if `pendingRebuild`
was set, returning to the idle state.  The second component counts the rebuild
cycles run. -/
def handleFire (s : WatchFlags) : WatchFlags × Nat :=
  if s.isProcessing then ({ s with pendingRebuild := true }, 0)
  else (⟨false, false⟩, if s.pendingRebuild then 2 else 1)

/-- Total number of rebuild cycles run by `n` successive completed handler
invocations starting from state `s`. -/
def runFires (s : WatchFlags) : Nat → Nat
  | 0 => 0
  | n + 1 =>
    let p := handleFire s
    p.2 + runFires p.1 n

/-! ## Paths and chain detection (`src/core/monorepo.ts`) -/

/-- An absolute, normalized filesystem path, as its list of components; the
filesystem root is `[]`.  `path.join p s` is `p ++ [s]` and `path.dirname` is
`List.dropLast`. -/
abbrev FsPath := List String

/-- JavaScript `path.dirname` on an absolute normalized path: the parent
directory; the root is its own parent. -/
def dirname (p : FsPath) : FsPath := p.dropLast

/-- The chain record built by `detectMonorepoChain` (`src/core/types.ts`). -/
structure InheritanceChain where
  global : Option FsPath
  ancestors : List FsPath
  current : Option FsPath
deriving DecidableEq, Repr

/-- Shallow embedding of the upward `while` loop of `detectMonorepoChain`
(`src/core/monorepo.ts`, lines 23-38): starting at `cur`, record
`cur/.agents` whenever it exists, stop when the parent equals the current
directory, or the parent equals `homeDir`, or the current directory equals
`homeDir`; otherwise continue at the parent.  `ex` is the `pathExists`
predicate of the ambient filesystem. -/
def walkAgents (ex : FsPath → Bool) (homeDir : FsPath) (cur : FsPath) : List FsPath :=
  let acc := if ex (cur ++ [".agents"]) then [cur ++ [".agents"]] else []
  let parent := dirname cur
  if parent = cur ∨ parent = homeDir ∨ cur = homeDir then acc
  else acc ++ walkAgents ex homeDir parent
termination_by cur.length
decreasing_by
  rename_i hstop
  simp only [not_or] at hstop
  have hne : cur ≠ [] := by
    intro hnil
    exact hstop.1 (show dirname cur = cur by simp [dirname, hnil])
  show (dirname cur).length < cur.length
  rw [dirname, List.length_dropLast]
  exact Nat.sub_lt (List.length_pos.mpr hne) Nat.one_pos

/-- Shallow embedding of `detectMonorepoChain` (`src/core/monorepo.ts`, lines
12-46), with `startDir` already resolved to an absolute normalized path:
`homeDir/.agents` becomes `global` when it exists; the first folder recorded
by the upward walk becomes `current` and the rest become `ancestors`. -/
def detectMonorepoChain (ex : FsPath → Bool) (startDir homeDir : FsPath) :
    InheritanceChain :=
  let globalAgents := homeDir ++ [".agents"]
  let agentsFolders := walkAgents ex homeDir startDir
  { global := if ex globalAgents then some globalAgents else none
    ancestors := agentsFolders.tail
    current := agentsFolders.head? }

/-- Shallow embedding of `hasMonorepoParent` (`src/core/monorepo.ts`). -/
def hasMonorepoParent (chain : InheritanceChain) : Bool :=
  !chain.ancestors.isEmpty || chain.global.isSome

/-- Shallow embedding of `getEffectiveChain` (`src/core/monorepo.ts`, lines
52-66): `[current?] ++ ancestors ++ [global?]` with the null entries
omitted. -/
def getEffectiveChain (chain : InheritanceChain) : List FsPath :=
  (chain.current.toList) ++ chain.ancestors ++ (chain.global.toList)

/-- The directory `d` lies strictly above `h`: `d` is a proper ancestor
directory of `h`. -/
def strictlyAbove (d h : FsPath) : Bool :=
  d.isPrefixOf h && decide (d ≠ h)

/-- Concrete filesystem for the C5 counterexample: a single canonical marker
at `/home/.agents`, while the home directory is `/home/u`. -/
def fsAboveHome : FsPath → Bool :=
  fun p => decide (p = ["home", ".agents"])

/-- Concrete filesystem for the C5 witness: a single canonical marker at
`/home/u/proj/.agents`, inside the home directory `/home/u`. -/
def fsBelowHome : FsPath → Bool :=
  fun p => decide (p = ["home", "u", "proj", ".agents"])

/-- Concrete filesystem for the C10 witness: a single canonical marker at the
home directory `/home/u` itself. -/
def fsHomeMarker : FsPath → Bool :=
  fun p => decide (p = ["home", "u", ".agents"])

/-! ## Directory trees and the merge engine (`src/core/merge.ts`) -/

/-- One entry of a directory: a file with its content, or a subdirectory with
its own named entries.  A directory listing is a `List (String × FsEntry)`;
real directory listings have pairwise-distinct names. -/
inductive FsEntry : Type where
  | file : String → FsEntry
  | dir : List (String × FsEntry) → FsEntry
deriving Repr

/-- Lookup of the first entry with the given name in a directory listing. -/
def lookupE : List (String × FsEntry) → String → Option FsEntry
  | [], _ => none
  | (m, e) :: rest, n => if m = n then some e else lookupE rest n

/-- Overwrite-or-create the entry named `n` in a directory listing (the
filesystem effect of `fs.copyFile` / `ensureDir` at one name).  The real
filesystem overwrites in place; keeping the other entries and placing the
written one last is lookup-equivalent because names are distinct. -/
def setEntry (d : List (String × FsEntry)) (n : String) (e : FsEntry) :
    List (String × FsEntry) :=
  d.filter (fun p => p.1 ≠ n) ++ [(n, e)]

/-- Entries of the subdirectory named `n`, or `[]` when no such subdirectory
exists yet (the state `ensureDir(destSubDir)` starts a recursive copy from). -/
def subEntries (d : List (String × FsEntry)) (n : String) :
    List (String × FsEntry) :=
  match lookupE d n with
  | some (.dir sub) => sub
  | _ => []

/-- Shallow embedding of `copyDirectoryContents` (`src/core/merge.ts`, lines
90-106): every file of `src` overwrites the same-named entry of `dest`, and
every subdirectory of `src` is copied recursively into the same-named
subdirectory of `dest` (created empty when absent).  The source iterates the
files first and the subdirectories second; since a real directory listing has
distinct names, iterating the entries in listing order is equivalent.  A name
that is a file in `src` and a directory in `dest` (or vice versa) makes the
original code throw a filesystem error; the embedding lets the source's type
win, and the theorems only evaluate it away from that error case. -/
def copyDirectoryContents :
    List (String × FsEntry) → List (String × FsEntry) → List (String × FsEntry)
  | [], dest => dest
  | (n, .file c) :: rest, dest =>
    copyDirectoryContents rest (setEntry dest n (.file c))
  | (n, .dir sub) :: rest, dest =>
    copyDirectoryContents rest
      (setEntry dest n (.dir (copyDirectoryContents sub (subEntries dest n))))

/-- The chain nodes that contain the resource, nearest first, as
`dirsWithContent` is computed in `mergeDirectoryChain` (`src/core/merge.ts`,
lines 145-151): each element is the resource directory's path together with
its entries. -/
def contributingDirs (fsDir : FsPath → Option (List (String × FsEntry)))
    (agentsPaths : List FsPath) (resource : String) :
    List (FsPath × List (String × FsEntry)) :=
  agentsPaths.filterMap
    (fun p => (fsDir (p ++ [resource])).map (fun d => (p ++ [resource], d)))

/-- The copy loop of the `extend` arm of `mergeDirectoryChain`
(`src/core/merge.ts`, lines 164-166): the contributing directories, nearest
first, are copied farthest-to-nearest into the merge directory, starting from
its pre-existing contents `init`. -/
def extendFold (ds : List (List (String × FsEntry)))
    (init : List (String × FsEntry)) : List (String × FsEntry) :=
  ds.reverse.foldl (fun acc d => copyDirectoryContents d acc) init

/-- Nearest-first lookup of a name across a chain of directory listings. -/
def chainLookup : List (List (String × FsEntry)) → String → Option FsEntry
  | [], _ => none
  | d :: ds, n =>
    match lookupE d n with
    | some e => some e
    | none => chainLookup ds n

/-- Shallow embedding of the `inherit` arm of `mergeDirectoryChain`
(`src/core/merge.ts`, lines 124-132): the first chain node whose resource
directory exists wins outright. -/
def findResourceDir (fsDir : FsPath → Option (List (String × FsEntry)))
    (agentsPaths : List FsPath) (resource : String) :
    Option (FsPath × List (String × FsEntry)) :=
  match agentsPaths with
  | [] => none
  | p :: rest =>
    match fsDir (p ++ [resource]) with
    | some d => some (p ++ [resource], d)
    | none => findResourceDir fsDir rest resource

/-- The inner parent loop of `mergeCompose` (`src/core/merge.ts`, lines
199-211): search the parent paths nearest-first for the first one whose
resource directory exists and contains an item named `cleanName`; parents
whose resource directory lacks the item do not stop the search. -/
def findIncludedItem (fsDir : FsPath → Option (List (String × FsEntry)))
    (parentPaths : List FsPath) (resource : String) (cleanName : String) :
    Option (String × FsEntry) :=
  match parentPaths with
  | [] => none
  | p :: rest =>
    match fsDir (p ++ [resource]) with
    | none => findIncludedItem fsDir rest resource cleanName
    | some d =>
      match lookupE d cleanName with
      | some e => some (cleanName, e)
      | none => findIncludedItem fsDir rest resource cleanName

/-- Test for `itemName.endsWith('/')` (`src/core/merge.ts`, line 203),
expressed on the character list. -/
def endsWithSlash (s : String) : Bool :=
  s.data.getLast? == some '/'

/-- The `itemName.slice(0, -1)` of `src/core/merge.ts`, line 204: the string
without its last character. -/
def dropLastChar (s : String) : String :=
  ⟨s.data.dropLast⟩

/-- Shallow embedding of `mergeCompose` (`src/core/merge.ts`, lines 178-246).
`mergedInit` is the pre-existing content of `<currentRoot>/merged/<resource>`
(the code's `ensureDir` creates the directory but does not empty it).  The
result pairs the returned path with the entries of the directory at that
path; `none` models returning `null`. -/
def mergeCompose (fsDir : FsPath → Option (List (String × FsEntry)))
    (agentsPaths : List FsPath) (currentRoot : FsPath) (resource : String)
    (includeList : List String) (mergedInit : List (String × FsEntry)) :
    Option (FsPath × List (String × FsEntry)) :=
  let currentDir := currentRoot ++ [resource]
  let parentPaths := agentsPaths.filter (fun p => p ≠ currentRoot)
  match fsDir currentDir, includeList with
  | none, [] => none
  | some cd, [] => some (currentDir, cd)
  | current?, _ =>
    let itemsToInclude := includeList.filterMap (fun itemName =>
      let isDirectory := endsWithSlash itemName
      let cleanName := if isDirectory then dropLastChar itemName else itemName
      findIncludedItem fsDir parentPaths resource cleanName)
    match itemsToInclude, current? with
    | [], none => none
    | [], some cd => some (currentDir, cd)
    | _, _ =>
      let mergedDir := currentRoot ++ ["merged", resource]
      let afterIncludes := itemsToInclude.foldl
        (fun acc item =>
          match item.2 with
          | .dir sub =>
            setEntry acc item.1 (.dir (copyDirectoryContents sub (subEntries acc item.1)))
          | .file c => setEntry acc item.1 (.file c))
        mergedInit
      let finalEntries :=
        match current? with
        | some cd => copyDirectoryContents cd afterIncludes
        | none => afterIncludes
      some (mergedDir, finalEntries)

/-- The four merge behaviors (`src/core/types.ts`). -/
inductive ExtendBehavior : Type where
  | inherit
  | override
  | extend
  | compose
deriving DecidableEq, Repr

/-- Shallow embedding of `mergeDirectoryChain` (`src/core/merge.ts`, lines
116-169).  `fsDir p` gives the entries of the directory at `p` when it
exists.  The result pairs the returned effective-source path with the entries
of the directory at that path; `none` models returning `null`.  `mergedInit`
is the pre-existing content of `<currentRoot>/merged/<resource>`. -/
def mergeDirectoryChain (fsDir : FsPath → Option (List (String × FsEntry)))
    (agentsPaths : List FsPath) (currentRoot : FsPath) (resource : String)
    (behavior : ExtendBehavior) (includeList : Option (List String))
    (mergedInit : List (String × FsEntry)) :
    Option (FsPath × List (String × FsEntry)) :=
  match behavior with
  | .override =>
    let currentDir := currentRoot ++ [resource]
    match fsDir currentDir with
    | some d => some (currentDir, d)
    | none => none
  | .inherit => findResourceDir fsDir agentsPaths resource
  | .compose =>
    mergeCompose fsDir agentsPaths currentRoot resource (includeList.getD []) mergedInit
  | .extend =>
    match contributingDirs fsDir agentsPaths resource with
    | [] => none
    | [single] => some single
    | ds =>
      some (currentRoot ++ ["merged", resource],
        extendFold (ds.map Prod.snd) mergedInit)

/-! ## Node configuration (`src/core/config.ts`) -/

/-- The `extends` field of a node config (`src/core/types.ts`): absent, a
boolean, or a per-resource table with an optional `default` entry. -/
inductive ExtendsField : Type where
  | unset
  | all : Bool → ExtendsField
  | table : List (String × ExtendBehavior) → Option ExtendBehavior → ExtendsField
deriving Repr

/-- A node configuration as produced by `loadMonorepoConfig`: the `extends`
field and the optional per-resource `include` lists.  The `exclude` globs are
not touched by any claim under verification and are omitted from the
embedding. -/
structure MonorepoConfig where
  extendsField : ExtendsField := .unset
  includeField : Option (List (String × List String)) := none

/-- Shallow embedding of `getExtendBehavior` (`src/core/config.ts`, lines
44-59): an absent or `true` `extends` means `inherit`, `false` means
`override`, and a table answers with the resource-specific entry, else its
`default` entry, else `inherit`. -/
def getExtendBehavior (config : MonorepoConfig) (resource : String) :
    ExtendBehavior :=
  match config.extendsField with
  | .unset => .inherit
  | .all true => .inherit
  | .all false => .override
  | .table entries dflt =>
    match entries.lookup resource with
    | some b => b
    | none => dflt.getD .inherit

/-- Shallow embedding of `getIncludeList` (`src/core/config.ts`, lines
108-113): `none` models returning `null`; an empty list is a meaningful value
distinct from `none`. -/
def getIncludeList (config : MonorepoConfig) (resource : String) :
    Option (List String) :=
  match config.includeField with
  | none => none
  | some inc => inc.lookup resource

/-! ## Instructions-file merge (`src/core/merge.ts`, `mergeAgentsMd`) -/

/-- The per-node candidate scan of `mergeAgentsMd`'s inherit arm
(`src/core/merge.ts`, lines 263-270): the first chain node owning `CLAUDE.md`
(strict priority) or else `AGENTS.md` wins.  `fsFile p` is the content of the
file at `p` when it exists. -/
def findAgentsFile (fsFile : FsPath → Option String) :
    List FsPath → Option FsPath
  | [] => none
  | root :: rest =>
    if (fsFile (root ++ ["CLAUDE.md"])).isSome then some (root ++ ["CLAUDE.md"])
    else if (fsFile (root ++ ["AGENTS.md"])).isSome then some (root ++ ["AGENTS.md"])
    else findAgentsFile fsFile rest

/-- Shallow embedding of `mergeAgentsMd` (`src/core/merge.ts`, lines
248-298), returning the path of the effective instructions file (`none`
models `null`).  In the fall-through (extend/compose) arm with two or more
contributing files, the merged content — `mergeMarkdownChain` over the files
farthest-first — is written to `<currentRoot>/merged/AGENTS.md` and that path
is returned; the written content plays no role in the mapping claims and is
not carried here. -/
def mergeAgentsMd (fsFile : FsPath → Option String) (agentsPaths : List FsPath)
    (currentRoot : FsPath) (behavior : ExtendBehavior) : Option FsPath :=
  match behavior with
  | .override =>
    if (fsFile (currentRoot ++ ["CLAUDE.md"])).isSome then
      some (currentRoot ++ ["CLAUDE.md"])
    else if (fsFile (currentRoot ++ ["AGENTS.md"])).isSome then
      some (currentRoot ++ ["AGENTS.md"])
    else none
  | .inherit => findAgentsFile fsFile agentsPaths
  | _ =>
    let filesToMerge := agentsPaths.filterMap (fun root =>
      if (fsFile (root ++ ["CLAUDE.md"])).isSome then some (root ++ ["CLAUDE.md"])
      else if (fsFile (root ++ ["AGENTS.md"])).isSome then some (root ++ ["AGENTS.md"])
      else none)
    match filesToMerge with
    | [] => none
    | [single] => some single
    | _ => some (currentRoot ++ ["merged", "AGENTS.md"])

/-! ## Mapping builder (`src/core/mappings.ts`) -/

/-- The supported client tools (`src/core/types.ts`). -/
inductive Client : Type where
  | claude
  | factory
  | codex
  | cursor
  | opencode
deriving DecidableEq, Repr

/-- File-versus-directory kind of a mapping source (`src/core/types.ts`). -/
inductive SourceKind : Type where
  | file
  | dir
deriving DecidableEq, Repr

/-- One resolved source-to-targets association (`src/core/types.ts`). -/
structure Mapping where
  name : String
  source : FsPath
  targets : List FsPath
  kind : SourceKind
deriving DecidableEq, Repr

/-- Operation scope of `getMappings` (`src/core/types.ts`). -/
inductive Scope : Type where
  | global
  | project
deriving DecidableEq, Repr

/-- The per-client configuration roots, as computed by `resolveRoots` and
`resolveMonorepoRoots` (`src/core/paths.ts`). -/
structure ResolvedRoots where
  claudeRoot : FsPath
  factoryRoot : FsPath
  codexRoot : FsPath
  cursorRoot : FsPath
  opencodeRoot : FsPath
  opencodeConfigRoot : FsPath

/-- The instructions-file target table of the non-claude clients, shared by
`getMappings` (lines 36-40) and `getMonorepoMappings` (lines 137-141) of
`src/core/mappings.ts`. -/
def agentsMdTargets (roots : ResolvedRoots) (clients : List Client) :
    List FsPath :=
  [if Client.factory ∈ clients then some (roots.factoryRoot ++ ["AGENTS.md"]) else none,
   if Client.codex ∈ clients then some (roots.codexRoot ++ ["AGENTS.md"]) else none,
   if Client.opencode ∈ clients then
     some (roots.opencodeConfigRoot ++ ["AGENTS.md"]) else none].filterMap id

/-- The `commands` target table (`src/core/mappings.ts`, lines 56-62 and
167-173); the codex client maps `commands` into its `prompts` directory. -/
def commandsTargets (roots : ResolvedRoots) (clients : List Client) :
    List FsPath :=
  [if Client.claude ∈ clients then some (roots.claudeRoot ++ ["commands"]) else none,
   if Client.factory ∈ clients then some (roots.factoryRoot ++ ["commands"]) else none,
   if Client.codex ∈ clients then some (roots.codexRoot ++ ["prompts"]) else none,
   if Client.opencode ∈ clients then some (roots.opencodeRoot ++ ["commands"]) else none,
   if Client.cursor ∈ clients then some (roots.cursorRoot ++ ["commands"]) else none].filterMap id

/-- The `hooks` target table (`src/core/mappings.ts`, lines 68-71 and
191-194). -/
def hooksTargets (roots : ResolvedRoots) (clients : List Client) :
    List FsPath :=
  [if Client.claude ∈ clients then some (roots.claudeRoot ++ ["hooks"]) else none,
   if Client.factory ∈ clients then some (roots.factoryRoot ++ ["hooks"]) else none].filterMap id

/-- The `skills` target table (`src/core/mappings.ts`, lines 77-83 and
212-218). -/
def skillsTargets (roots : ResolvedRoots) (clients : List Client) :
    List FsPath :=
  [if Client.claude ∈ clients then some (roots.claudeRoot ++ ["skills"]) else none,
   if Client.factory ∈ clients then some (roots.factoryRoot ++ ["skills"]) else none,
   if Client.codex ∈ clients then some (roots.codexRoot ++ ["skills"]) else none,
   if Client.opencode ∈ clients then some (roots.opencodeRoot ++ ["skills"]) else none,
   if Client.cursor ∈ clients then some (roots.cursorRoot ++ ["skills"]) else none].filterMap id

/-- The instructions-file mapping block of `getMonorepoMappings`
(`src/core/mappings.ts`, lines 124-152): the claude client is mapped to the
resolved source under `claude-md`; unless the resolved source's basename is
`CLAUDE.md` (the claude override), the remaining clients are mapped to that
same source under `agents-md` — when any of their targets is requested. -/
def monorepoAgentsMdMappings (roots : ResolvedRoots) (clients : List Client)
    (agentsSource : Option FsPath) : List Mapping :=
  match agentsSource with
  | none => []
  | some src =>
    (if Client.claude ∈ clients then
      [⟨"claude-md", src, [roots.claudeRoot ++ ["CLAUDE.md"]], .file⟩] else [])
    ++
    (if src.getLast? = some "CLAUDE.md" then []
     else
      match agentsMdTargets roots clients with
      | [] => []
      | ts => [⟨"agents-md", src, ts, .file⟩])

/-- The mapping pushed for one directory resource when its effective source
resolved (`src/core/mappings.ts`, lines 163-176, 187-197, 208-221). -/
def dirMappingOf (nm : String)
    (src? : Option (FsPath × List (String × FsEntry))) (targets : List FsPath) :
    List Mapping :=
  match src? with
  | none => []
  | some (p, _) => [⟨nm, p, targets, .dir⟩]

/-- Shallow embedding of `getMonorepoMappings` (`src/core/mappings.ts`, lines
98-224).  `config` stands for `loadMonorepoConfig(currentRoot)`, `roots` for
the client roots of `resolveMonorepoRoots`, and `mergedInit r` for the
pre-existing content of the merge directory of resource `r`. -/
def getMonorepoMappings (fsFile : FsPath → Option String)
    (fsDir : FsPath → Option (List (String × FsEntry))) (roots : ResolvedRoots)
    (chain : InheritanceChain) (config : MonorepoConfig) (clients : List Client)
    (mergedInit : String → List (String × FsEntry)) : List Mapping :=
  match getEffectiveChain chain with
  | [] => []
  | firstInChain :: restChain =>
    let effectiveChain := firstInChain :: restChain
    let currentRoot := chain.current.getD firstInChain
    let agentsSource := mergeAgentsMd fsFile effectiveChain currentRoot
      (getExtendBehavior config "AGENTS.md")
    let commandsBehavior := getExtendBehavior config "commands"
    let commandsSource := mergeDirectoryChain fsDir effectiveChain currentRoot
      "commands" commandsBehavior
      (if commandsBehavior = .compose then getIncludeList config "commands" else none)
      (mergedInit "commands")
    let hooksBehavior := getExtendBehavior config "hooks"
    let hooksSource := mergeDirectoryChain fsDir effectiveChain currentRoot
      "hooks" hooksBehavior
      (if hooksBehavior = .compose then getIncludeList config "hooks" else none)
      (mergedInit "hooks")
    let skillsBehavior := getExtendBehavior config "skills"
    let skillsSource := mergeDirectoryChain fsDir effectiveChain currentRoot
      "skills" skillsBehavior
      (if skillsBehavior = .compose then getIncludeList config "skills" else none)
      (mergedInit "skills")
    monorepoAgentsMdMappings roots clients agentsSource
      ++ dirMappingOf "commands" commandsSource (commandsTargets roots clients)
      ++ dirMappingOf "hooks" hooksSource (hooksTargets roots clients)
      ++ dirMappingOf "skills" skillsSource (skillsTargets roots clients)

/-- Shallow embedding of `getMappings` (`src/core/mappings.ts`, lines 16-89):
single-root resolution outside a monorepo chain.  `canonical` is
`roots.canonicalRoot`; the instructions-file mappings are only emitted at
global scope, and the claude client receives `CLAUDE.md` when it exists at
the canonical root while the `agents-md` mapping always carries the
`AGENTS.md` path. -/
def getMappings (fsFile : FsPath → Option String) (scope : Scope)
    (canonical : FsPath) (roots : ResolvedRoots) (clients : List Client) :
    List Mapping :=
  let claudeOverride := canonical ++ ["CLAUDE.md"]
  let agentsFallback := canonical ++ ["AGENTS.md"]
  let agentsSource :=
    if (fsFile claudeOverride).isSome then claudeOverride else agentsFallback
  let includeAgentFiles := scope = Scope.global
  (if includeAgentFiles ∧ Client.claude ∈ clients then
    [⟨"claude-md", agentsSource, [roots.claudeRoot ++ ["CLAUDE.md"]], .file⟩]
   else [])
  ++
  (if includeAgentFiles then
    match agentsMdTargets roots clients with
    | [] => []
    | ts => [⟨"agents-md", agentsFallback, ts, .file⟩]
   else [])
  ++
  [⟨"commands", canonical ++ ["commands"], commandsTargets roots clients, .dir⟩,
   ⟨"hooks", canonical ++ ["hooks"], hooksTargets roots clients, .dir⟩,
   ⟨"skills", canonical ++ ["skills"], skillsTargets roots clients, .dir⟩]

/-! ## Link-state filesystem, repair (`src/core/repair.ts`) and status
(`src/core/status.ts`) -/

/-- One node of the link-state filesystem: a real (non-symlink) file or
directory carrying opaque content, or a symbolic link holding its destination.
The links this tool creates are absolute, so destinations are stored as
absolute normalized paths. -/
inductive FsNode : Type where
  | real : String → FsNode
  | symlink : FsPath → FsNode
deriving DecidableEq, Repr

/-- The link-state filesystem: a finite map from path to node. -/
abbrev LinkFs := List (FsPath × FsNode)

/-- Lookup of the node at a path. -/
def lookupNode : LinkFs → FsPath → Option FsNode
  | [], _ => none
  | (q, nd) :: rest, p => if q = p then some nd else lookupNode rest p

/-- Create-or-overwrite the node at a path. -/
def setNode (fs : LinkFs) (p : FsPath) (nd : FsNode) : LinkFs :=
  fs.filter (fun q => q.1 ≠ p) ++ [(p, nd)]

/-- Remove the node at a path (`fs.promises.unlink`). -/
def removeNode (fs : LinkFs) (p : FsPath) : LinkFs :=
  fs.filter (fun q => q.1 ≠ p)

/-- Resolution of a path to an existing real node, following symlinks with
bounded fuel; `fs.length + 1` steps cover every acyclic chain. -/
def resolvesReal (fs : LinkFs) : Nat → FsPath → Bool
  | 0, _ => false
  | fuel + 1, p =>
    match lookupNode fs p with
    | some (.real _) => true
    | some (.symlink d) => resolvesReal fs fuel d
    | none => false

/-- `pathExists` of `src/utils/fs.ts` on the link-state model: the probe
follows symbolic links, so a dangling link does not exist while a link to an
existing real node does. -/
def pathExistsL (fs : LinkFs) (p : FsPath) : Bool :=
  resolvesReal fs (fs.length + 1) p

/-- `ensureDir` on the link-state model: the target's parent directory is
created when absent.  Creation of missing higher ancestors is elided — no
claim depends on it. -/
def ensureDirL (fs : LinkFs) (p : FsPath) : LinkFs :=
  match lookupNode fs p with
  | some _ => fs
  | none => setNode fs p (.real "dir")

/-- The four per-target outcomes of `ensureSymlink`
(`src/core/repair.ts`, line 63). -/
inductive RepairOutcome : Type where
  | created
  | updated
  | skipped
  | error
deriving DecidableEq, Repr

/-- Shallow embedding of `ensureSymlink` (`src/core/repair.ts`, lines 59-99):
a missing source is skipped; an existing target that is a symlink resolving to
the source is skipped, a symlink resolving elsewhere is replaced (`updated`),
and a real file or directory is skipped; a free target gets a fresh link
(`created`).  A target that exists as a node but fails the (link-following)
`pathExists` probe is a dangling symlink: `fs.promises.symlink` then throws
`EEXIST`, which the catch-all maps to `error`.  `kind` only selects the
junction-versus-file link flavor and does not affect the state model. -/
def ensureSymlink (fs : LinkFs) (source target : FsPath) (kind : SourceKind) :
    RepairOutcome × LinkFs :=
  if ¬ pathExistsL fs source then (.skipped, fs)
  else if pathExistsL fs target then
    match lookupNode fs target with
    | some (.symlink d) =>
      if d = source then (.skipped, fs)
      else
        let fs1 := removeNode fs target
        let fs2 := ensureDirL fs1 (dirname target)
        (.updated, setNode fs2 target (.symlink source))
    | _ => (.skipped, fs)
  else
    match lookupNode fs target with
    | none =>
      let fs1 := ensureDirL fs (dirname target)
      (.created, setNode fs1 target (.symlink source))
    | some _ => (.error, fs)

/-- Aggregate result of `repair` (`src/core/repair.ts`, lines 14-20); errors
are recorded per failed target. -/
structure RepairCounts where
  created : Nat
  updated : Nat
  skipped : Nat
  errors : List FsPath
deriving DecidableEq, Repr

/-- One iteration of the target loop of `repair` (`src/core/repair.ts`, lines
130-148). -/
def repairStep (source : FsPath) (kind : SourceKind)
    (acc : RepairCounts × LinkFs) (target : FsPath) : RepairCounts × LinkFs :=
  let c := acc.1
  let r := ensureSymlink acc.2 source target kind
  (match r.1 with
   | .created => { c with created := c.created + 1 }
   | .updated => { c with updated := c.updated + 1 }
   | .skipped => { c with skipped := c.skipped + 1 }
   | .error => { c with errors := c.errors ++ [target] },
   r.2)

/-- Shallow embedding of the mapping/target loops of `repair`
(`src/core/repair.ts`, lines 130-150), threading the filesystem through the
sequential `ensureSymlink` calls. -/
def repairRun (mappings : List Mapping) (fs : LinkFs) : RepairCounts × LinkFs :=
  mappings.foldl
    (fun acc m => m.targets.foldl (repairStep m.source m.kind) acc)
    (⟨0, 0, 0, []⟩, fs)

/-- The three per-target statuses of `getLinkStatus` (`src/core/types.ts`). -/
inductive LinkStatusTag : Type where
  | linked
  | missing
  | conflict
deriving DecidableEq, Repr

/-- The per-target classification loop body shared by `getLinkStatus` and
`getMonorepoLinkStatus` (`src/core/status.ts`, lines 24-41 and 55-72): a
target failing the (link-following) existence probe is `missing`; an existing
symlink is `linked` exactly when its resolved absolute destination equals the
mapping's source, else `conflict`; an existing non-symlink is `conflict`. -/
def classifyTarget (fs : LinkFs) (source target : FsPath) : LinkStatusTag :=
  if ¬ pathExistsL fs target then .missing
  else
    match lookupNode fs target with
    | some (.symlink d) => if d = source then .linked else .conflict
    | _ => .conflict

/-! ## Concrete filesystems for counterexamples and witnesses -/

/-- Concrete filesystem for the C1 counterexample: two chain nodes whose
`skills` directories both contain a subdirectory named `s`, with a different
file inside each. -/
def fsSubdirCollide : FsPath → Option (List (String × FsEntry)) :=
  fun p =>
    if p = ["a", ".agents", "skills"] then some [("s", .dir [("a.md", .file "A")])]
    else if p = ["b", ".agents", "skills"] then some [("s", .dir [("b.md", .file "B")])]
    else none

/-- Concrete filesystem with two flat `commands` directories that collide on
the name `both.md`; used by the C1 witness and the C2 failing input. -/
def fsFlatCommands : FsPath → Option (List (String × FsEntry)) :=
  fun p =>
    if p = ["a", ".agents", "commands"] then
      some [("both.md", .file "cur"), ("a.md", .file "A")]
    else if p = ["b", ".agents", "commands"] then
      some [("both.md", .file "par"), ("b.md", .file "B")]
    else none

/-- Concrete configuration for the C3 end-to-end scenario:
`extends: { commands: compose, default: inherit }` and
`include: { commands: [build.md] }`. -/
def cfgCompose : MonorepoConfig :=
  { extendsField := .table [("commands", .compose)] (some .inherit)
    includeField := some [("commands", ["build.md"])] }

/-- The two-node effective chain used by several concrete merge scenarios:
the current node `/a/.agents` and one ancestor `/b/.agents`. -/
def twoNodePaths : List FsPath := [["a", ".agents"], ["b", ".agents"]]

/-- Concrete filesystem for the C3 end-to-end scenario: the current node's
`commands` holds `local.md`; the ancestor node's `commands` holds `build.md`
and `deploy.md`. -/
def fsComposeScenario : FsPath → Option (List (String × FsEntry)) :=
  fun p =>
    if p = ["p", ".agents", "commands"] then some [("local.md", .file "L")]
    else if p = ["m", ".agents", "commands"] then
      some [("build.md", .file "B"), ("deploy.md", .file "D")]
    else none

/-- Concrete client roots for the mapping witnesses. -/
def sampleRoots : ResolvedRoots :=
  { claudeRoot := ["proj", ".claude"]
    factoryRoot := ["proj", ".factory"]
    codexRoot := ["proj", ".codex"]
    cursorRoot := ["proj", ".cursor"]
    opencodeRoot := ["proj", ".opencode"]
    opencodeConfigRoot := ["home", "u", ".config", "opencode"] }

/-- Concrete file layer for the C4 witness: only `CLAUDE.md` exists at the
canonical root `/proj/.agents`. -/
def fsClaudeOnly : FsPath → Option String :=
  fun p => if p = ["proj", ".agents", "CLAUDE.md"] then some "# claude" else none

/-- Concrete directory layer with no resource directories at all. -/
def noDirs : FsPath → Option (List (String × FsEntry)) := fun _ => none

/-- All five supported clients. -/
def allClients : List Client := [.claude, .factory, .codex, .cursor, .opencode]

/-- A chain consisting of the current node `/proj/.agents` only. -/
def chainCurrentOnly : InheritanceChain :=
  { global := none, ancestors := [], current := some ["proj", ".agents"] }

/-- The empty node configuration (missing `config.yaml`). -/
def emptyConfig : MonorepoConfig := {}

/-- A pristine merge directory for every resource. -/
def emptyMergedInit : String → List (String × FsEntry) := fun _ => []

/-- Concrete link-state filesystem: a real source, two targets already linked
to it, and one real (non-symlink) target whose content equals the source's. -/
def fsLinkSample : LinkFs :=
  [(["proj", "src"], .real "data"),
   (["proj", "t1"], .symlink ["proj", "src"]),
   (["proj", "t2"], .symlink ["proj", "src"]),
   (["proj", "treal"], .real "data")]

/-- Concrete mapping whose two targets are already linked in
`fsLinkSample`. -/
def mappingLinked : Mapping :=
  ⟨"commands", ["proj", "src"], [["proj", "t1"], ["proj", "t2"]], .dir⟩

/-! ## Theorems -/

/-- Lemma: the parent of `p/s` is `p`. -/
theorem dirname_join (p : FsPath) (s : String) : dirname (p ++ [s]) = p := by
  simp [dirname]

/-- Lemma: going one directory up preserves being inside `homeDir`'s subtree,
as long as we are not at `homeDir` itself. -/
theorem prefix_dropLast {homeDir cur : FsPath} (h : homeDir <+: cur)
    (hne : cur ≠ homeDir) : homeDir <+: cur.dropLast := by
  obtain ⟨t, rfl⟩ := h
  rcases List.eq_nil_or_concat t with rfl | ⟨s, a, rfl⟩
  · simp at hne
  · rw [List.concat_eq_append, ← List.append_assoc, List.dropLast_concat]
    exact ⟨s, rfl⟩

/-- Lemma: when the walk starts inside `homeDir`'s subtree, every recorded
canonical marker sits in a directory that is still inside `homeDir`'s
subtree. -/
theorem walkAgents_within (ex : FsPath → Bool) (homeDir : FsPath) :
    ∀ n (cur : FsPath), cur.length ≤ n → homeDir <+: cur →
      ∀ p ∈ walkAgents ex homeDir cur, homeDir <+: dirname p := by
  intro n
  induction n with
  | zero =>
    intro cur hlen hpre p hp
    have hcur : cur = [] := List.length_eq_zero.mp (Nat.le_zero.mp hlen)
    subst hcur
    have hhome : homeDir = [] := List.prefix_nil.mp hpre
    rw [walkAgents] at hp
    simp only [dirname, List.dropLast_nil, hhome] at hp ⊢
    split at hp <;> simp_all [dirname]
  | succ n ih =>
    intro cur hlen hpre p hp
    rw [walkAgents] at hp
    by_cases hstop : dirname cur = cur ∨ dirname cur = homeDir ∨ cur = homeDir
    · rw [if_pos hstop] at hp
      split at hp <;> simp_all
      subst hp
      rw [dirname_join]
      exact hpre
    · rw [if_neg hstop] at hp
      simp only [not_or] at hstop
      have hne : cur ≠ [] := by
        intro hnil
        exact hstop.1 (by simp [dirname, hnil])
      have hlen' : (dirname cur).length ≤ n := by
        rw [dirname, List.length_dropLast]
        have hpos := List.length_pos.mpr hne
        omega
      have hpre' : homeDir <+: dirname cur := prefix_dropLast hpre hstop.2.2
      rcases List.mem_append.mp hp with hacc | hrec
      · split at hacc <;> simp_all
        subst hacc
        rw [dirname_join]
        exact hpre
      · exact ih (dirname cur) hlen' hpre' p hrec

/-- C5 counterexample: with home directory `/home/u` and start directory
`/home` — which lies strictly above the home directory — the canonical marker
`/home/.agents`, located strictly above `homeDir`, is returned as the chain's
`current`; the claim as stated (for every `startDir` and `homeDir`) is
therefore false. -/
theorem detectMonorepoChain_sees_marker_above_home :
    (detectMonorepoChain fsAboveHome ["home"] ["home", "u"]).current
        = some ["home", ".agents"] ∧
    strictlyAbove (dirname ["home", ".agents"]) ["home", "u"] = true := by
  constructor
  · rw [detectMonorepoChain]
    rw [walkAgents]
    rw [walkAgents]
    simp [fsAboveHome, dirname]
  · decide

/-- C5 (amended): whenever `startDir` lies inside `homeDir`'s subtree — the
situation the walk's stop conditions are designed for — the chain returned by
`detectMonorepoChain` never contains, as `current` or as an ancestor, a
canonical marker located in a directory strictly above `homeDir`, even when
such a marker exists on disk. -/
theorem detectMonorepoChain_never_above_home (ex : FsPath → Bool)
    (startDir homeDir marker : FsPath) (hstart : homeDir <+: startDir)
    (hmem : (detectMonorepoChain ex startDir homeDir).current = some marker ∨
      marker ∈ (detectMonorepoChain ex startDir homeDir).ancestors) :
    strictlyAbove (dirname marker) homeDir = false := by
  have hin : marker ∈ walkAgents ex homeDir startDir := by
    rcases hmem with h | h
    · exact List.mem_of_mem_head? (by simpa [detectMonorepoChain] using h)
    · exact List.mem_of_mem_tail (by simpa [detectMonorepoChain] using h)
  have hpre : homeDir <+: dirname marker :=
    walkAgents_within ex homeDir startDir.length startDir le_rfl hstart marker hin
  rw [strictlyAbove]
  by_cases hd : (dirname marker).isPrefixOf homeDir
  · have h1 : dirname marker <+: homeDir := List.isPrefixOf_iff_prefix.mp hd
    have heq : dirname marker = homeDir :=
      h1.eq_of_length (le_antisymm h1.length_le hpre.length_le)
    simp [heq]
  · simp [hd]

/-- Witness for C5 (amended): a marker at `/home/u/proj/.agents` below the
home directory `/home/u` is in the chain, and its directory is not strictly
above the home directory. -/
theorem detectMonorepoChain_never_above_home_witness :
    strictlyAbove (dirname ["home", "u", "proj", ".agents"]) ["home", "u"] = false :=
  detectMonorepoChain_never_above_home fsBelowHome ["home", "u", "proj"]
    ["home", "u"] ["home", "u", "proj", ".agents"]
    (by decide)
    (Or.inl (by rw [detectMonorepoChain]; rw [walkAgents]; simp [fsBelowHome, dirname]))

/-- C10: when `startDir` equals `homeDir` and a canonical marker exists at the
home directory, `detectMonorepoChain` records that marker both as `current`
and as `global`, with no ancestors, so `getEffectiveChain` returns the same
root twice. -/
theorem detectMonorepoChain_home_marker_twice (ex : FsPath → Bool)
    (homeDir : FsPath) (hmk : ex (homeDir ++ [".agents"]) = true) :
    (detectMonorepoChain ex homeDir homeDir).current = some (homeDir ++ [".agents"]) ∧
    (detectMonorepoChain ex homeDir homeDir).global = some (homeDir ++ [".agents"]) ∧
    (detectMonorepoChain ex homeDir homeDir).ancestors = [] ∧
    getEffectiveChain (detectMonorepoChain ex homeDir homeDir)
      = [homeDir ++ [".agents"], homeDir ++ [".agents"]] := by
  rw [detectMonorepoChain, walkAgents]
  simp [hmk, getEffectiveChain, detectMonorepoChain, walkAgents]

/-- Witness for C10 at home directory `/home/u` with a marker at
`/home/u/.agents`. -/
theorem detectMonorepoChain_home_marker_twice_witness :
    (detectMonorepoChain fsHomeMarker ["home", "u"] ["home", "u"]).current
        = some ["home", "u", ".agents"] ∧
    (detectMonorepoChain fsHomeMarker ["home", "u"] ["home", "u"]).global
        = some ["home", "u", ".agents"] ∧
    (detectMonorepoChain fsHomeMarker ["home", "u"] ["home", "u"]).ancestors = [] ∧
    getEffectiveChain (detectMonorepoChain fsHomeMarker ["home", "u"] ["home", "u"])
      = [["home", "u", ".agents"], ["home", "u", ".agents"]] :=
  detectMonorepoChain_home_marker_twice fsHomeMarker ["home", "u"] (by decide)

/-- C9: `mergeMarkdownChain` over three files with contents `"# A"`, a
whitespace-only string, and `"# C"` yields exactly `"# A\n\n---\n\n# C"`;
a missing middle file is skipped the same way. -/
theorem mergeMarkdownChain_separator_and_skip :
    mergeMarkdownChain [some "# A", some " \n ", some "# C"] = "# A\n\n---\n\n# C" ∧
    mergeMarkdownChain [some "# A", none, some "# C"] = "# A\n\n---\n\n# C" := by
  constructor <;> decide

/-- C8: when three change events arrive within the fixed debounce delay of
each other, exactly one debounced handler invocation fires, and that single
invocation, starting from the idle watch state, runs exactly one rebuild
cycle — not three. -/
theorem debounce_three_events_one_rebuild (delay t1 t2 t3 : Nat)
    (h12 : t2 < t1 + delay) (h23 : t3 < t2 + delay) :
    (debounceFireTimes delay [t1, t2, t3]).length = 1 ∧
    runFires ⟨false, false⟩ (debounceFireTimes delay [t1, t2, t3]).length = 1 := by
  simp [debounceFireTimes, if_pos h12, if_pos h23, runFires, handleFire]

/-- Witness for C8 at `delay = 100` and arrival times `0, 40, 80`. -/
theorem debounce_three_events_one_rebuild_witness :
    (debounceFireTimes 100 [0, 40, 80]).length = 1 ∧
    runFires ⟨false, false⟩ (debounceFireTimes 100 [0, 40, 80]).length = 1 :=
  debounce_three_events_one_rebuild 100 0 40 80 (by decide) (by decide)

/-- Lemma: lookup distributes over list append. -/
theorem lookupE_append (l1 l2 : List (String × FsEntry)) (n : String) :
    lookupE (l1 ++ l2) n =
      match lookupE l1 n with
      | some e => some e
      | none => lookupE l2 n := by
  induction l1 with
  | nil => simp [lookupE]
  | cons hd tl ih =>
    obtain ⟨m, e⟩ := hd
    by_cases h : m = n <;> simp [lookupE, h, ih]

/-- Lemma: filtering out the name `m` makes lookup of `m` fail. -/
theorem lookupE_filter_self (d : List (String × FsEntry)) (m : String) :
    lookupE (d.filter (fun p => p.1 ≠ m)) m = none := by
  induction d with
  | nil => rfl
  | cons hd tl ih =>
    obtain ⟨k, v⟩ := hd
    rw [List.filter_cons]
    by_cases h : k = m
    · rw [if_neg (by simp [h])]
      exact ih
    · rw [if_pos (by simp [h]), lookupE, if_neg h]
      exact ih

/-- Lemma: filtering out the name `m` does not change lookup of `n ≠ m`. -/
theorem lookupE_filter_ne (d : List (String × FsEntry)) {m n : String}
    (h : m ≠ n) : lookupE (d.filter (fun p => p.1 ≠ m)) n = lookupE d n := by
  induction d with
  | nil => rfl
  | cons hd tl ih =>
    obtain ⟨k, v⟩ := hd
    rw [List.filter_cons]
    by_cases hk : k = m
    · rw [if_neg (by simp [hk]), lookupE, if_neg (by rw [hk]; exact h), ih]
    · rw [if_pos (by simp [hk]), lookupE, lookupE]
      by_cases hn : k = n
      · rw [if_pos hn, if_pos hn]
      · rw [if_neg hn, if_neg hn, ih]

/-- Lemma: lookup after `setEntry`. -/
theorem lookupE_setEntry (d : List (String × FsEntry)) (m n : String)
    (e : FsEntry) :
    lookupE (setEntry d m e) n = if m = n then some e else lookupE d n := by
  rw [setEntry, lookupE_append]
  by_cases h : m = n
  · subst h
    rw [lookupE_filter_self, if_pos rfl]
    simp [lookupE]
  · rw [lookupE_filter_ne d h, if_neg h]
    cases hl : lookupE d n <;> simp [h, lookupE, hl]

/-- Lemma: the subdirectory entries at `n` are unchanged by writing a
different name. -/
theorem subEntries_setEntry_ne (d : List (String × FsEntry)) {m n : String}
    (e : FsEntry) (h : m ≠ n) :
    subEntries (setEntry d m e) n = subEntries d n := by
  simp [subEntries, lookupE_setEntry, h]

/-- Lemma: a name absent from the listing's names is not found. -/
theorem lookupE_eq_none_of_not_mem (d : List (String × FsEntry)) (n : String)
    (h : n ∉ d.map Prod.fst) : lookupE d n = none := by
  induction d with
  | nil => simp [lookupE]
  | cons hd tl ih =>
    obtain ⟨k, v⟩ := hd
    simp only [List.map_cons, List.mem_cons, not_or] at h
    have hkn : ¬k = n := fun hkn => h.1 hkn.symm
    simp [lookupE, hkn, ih h.2]

/-- Lemma: lookup after a recursive directory copy — a file of `src` wins, a
subdirectory of `src` is merged recursively into the same-named subdirectory
of `dest`, and a name absent from `src` falls through to `dest`. -/
theorem lookupE_copy (src : List (String × FsEntry)) :
    ∀ (dest : List (String × FsEntry)), (src.map Prod.fst).Nodup →
      ∀ n : String,
        lookupE (copyDirectoryContents src dest) n =
          match lookupE src n with
          | some (.file c) => some (.file c)
          | some (.dir sub) =>
            some (.dir (copyDirectoryContents sub (subEntries dest n)))
          | none => lookupE dest n := by
  induction src with
  | nil => intro dest _ n; simp [copyDirectoryContents, lookupE]
  | cons hd tl ih =>
    obtain ⟨m, e⟩ := hd
    intro dest hnd n
    rw [List.map_cons, List.nodup_cons] at hnd
    obtain ⟨hm, htl⟩ := hnd
    have hmnone : lookupE tl m = none := lookupE_eq_none_of_not_mem tl m hm
    cases e with
    | file c =>
      rw [copyDirectoryContents, ih (setEntry dest m (.file c)) htl n]
      by_cases h : m = n
      · subst h
        simp [lookupE, hmnone, lookupE_setEntry]
      · cases hl : lookupE tl n with
        | none => simp [lookupE, h, hl, lookupE_setEntry]
        | some e' =>
          cases e' <;>
            simp [lookupE, h, hl, subEntries_setEntry_ne _ _ h]
    | dir sub =>
      rw [copyDirectoryContents, ih _ htl n]
      by_cases h : m = n
      · subst h
        simp [lookupE, hmnone, lookupE_setEntry, subEntries]
      · cases hl : lookupE tl n with
        | none => simp [lookupE, h, hl, lookupE_setEntry]
        | some e' =>
          cases e' <;>
            simp [lookupE, h, hl, subEntries_setEntry_ne _ _ h]

/-- Lemma: the extend copy loop peels off the nearest directory last. -/
theorem extendFold_cons (d : List (String × FsEntry))
    (ds : List (List (String × FsEntry))) (init : List (String × FsEntry)) :
    extendFold (d :: ds) init = copyDirectoryContents d (extendFold ds init) := by
  simp [extendFold, List.reverse_cons, List.foldl_append]

/-- Lemma: a name survives the extend copy loop iff it occurs in some
contributing directory or in the pre-existing merge-directory contents. -/
theorem lookupE_extendFold_none_iff (ds : List (List (String × FsEntry)))
    (init : List (String × FsEntry))
    (hnd : ∀ d ∈ ds, (d.map Prod.fst).Nodup) (n : String) :
    lookupE (extendFold ds init) n = none ↔
      (∀ d ∈ ds, lookupE d n = none) ∧ lookupE init n = none := by
  induction ds with
  | nil => simp [extendFold]
  | cons d ds ih =>
    rw [extendFold_cons, lookupE_copy d _ (hnd d (by simp)) n]
    have ih' := ih (fun d' hd' => hnd d' (List.mem_cons_of_mem _ hd'))
    cases hl : lookupE d n with
    | none => simp [hl, ih']
    | some e => cases e <;> simp [hl]

/-- Lemma: when every occurrence of the name `n` across the contributing
directories is a file, the extend copy loop resolves `n` to the nearest
occurrence, falling through to the pre-existing merge-directory contents. -/
theorem lookupE_extendFold_files (ds : List (List (String × FsEntry)))
    (init : List (String × FsEntry)) (n : String)
    (hnd : ∀ d ∈ ds, (d.map Prod.fst).Nodup)
    (hfile : ∀ d ∈ ds, ∀ e, lookupE d n = some e → ∃ c, e = FsEntry.file c) :
    lookupE (extendFold ds init) n =
      match chainLookup ds n with
      | some e => some e
      | none => lookupE init n := by
  induction ds with
  | nil => simp [extendFold, chainLookup]
  | cons d ds ih =>
    rw [extendFold_cons, lookupE_copy d _ (hnd d (by simp)) n]
    have ih' := ih (fun d' hd' => hnd d' (List.mem_cons_of_mem _ hd'))
      (fun d' hd' => hfile d' (List.mem_cons_of_mem _ hd'))
    cases hl : lookupE d n with
    | none => simp [chainLookup, hl, ih']
    | some e =>
      cases e with
      | file c => simp [chainLookup, hl]
      | dir sub =>
        obtain ⟨c, hc⟩ := hfile d (by simp) _ hl
        exact absurd hc (by simp)

/-- C1 counterexample: two chain nodes both contain the directory resource
`skills` with the colliding entry name `s`; the synthesized merge directory's
entry at `s` is the recursive union of both nodes' subdirectories — not the
nearest node's content, as the claim states for every colliding name. -/
theorem mergeDirectoryChain_extend_subdir_merges_not_overwrites :
    mergeDirectoryChain fsSubdirCollide twoNodePaths ["a", ".agents"] "skills"
        .extend none []
      = some (["a", ".agents", "merged", "skills"],
          [("s", .dir [("b.md", .file "B"), ("a.md", .file "A")])]) ∧
    fsSubdirCollide (["a", ".agents"] ++ ["skills"])
      = some [("s", .dir [("a.md", .file "A")])] ∧
    fsSubdirCollide (["b", ".agents"] ++ ["skills"])
      = some [("s", .dir [("b.md", .file "B")])] ∧
    FsEntry.dir [("b.md", .file "B"), ("a.md", .file "A")]
      ≠ FsEntry.dir [("a.md", .file "A")] := by
  refine ⟨?_, by simp [fsSubdirCollide], by simp [fsSubdirCollide], by simp⟩
  simp [mergeDirectoryChain, contributingDirs, fsSubdirCollide, twoNodePaths,
    extendFold, copyDirectoryContents, setEntry, subEntries, lookupE]

/-- C1 (amended): for a chain in which at least two nodes contain the
directory resource, resolving under `extend` returns the synthesized
directory `<current>/merged/<resource>`; starting from an empty merge
directory, a name occurs in the result iff it occurs in some contributing
node, and a name all of whose occurrences are plain files resolves to the
nearest contributing node's content (subdirectory entries are instead merged
recursively, as the counterexample shows). -/
theorem mergeDirectoryChain_extend_union_nearest
    (fsDir : FsPath → Option (List (String × FsEntry)))
    (agentsPaths : List FsPath) (currentRoot : FsPath) (resource n : String)
    (h2 : 2 ≤ (contributingDirs fsDir agentsPaths resource).length)
    (hnodup : ∀ d ∈ contributingDirs fsDir agentsPaths resource,
      (d.2.map Prod.fst).Nodup)
    (hfile : ∀ d ∈ contributingDirs fsDir agentsPaths resource,
      ∀ e, lookupE d.2 n = some e → ∃ c, e = FsEntry.file c) :
    mergeDirectoryChain fsDir agentsPaths currentRoot resource .extend none []
      = some (currentRoot ++ ["merged", resource],
          extendFold ((contributingDirs fsDir agentsPaths resource).map Prod.snd) []) ∧
    (lookupE (extendFold
        ((contributingDirs fsDir agentsPaths resource).map Prod.snd) []) n = none ↔
      ∀ d ∈ contributingDirs fsDir agentsPaths resource, lookupE d.2 n = none) ∧
    lookupE (extendFold
        ((contributingDirs fsDir agentsPaths resource).map Prod.snd) []) n
      = chainLookup ((contributingDirs fsDir agentsPaths resource).map Prod.snd) n := by
  have hnd : ∀ d ∈ (contributingDirs fsDir agentsPaths resource).map Prod.snd,
      (d.map Prod.fst).Nodup := by
    intro d hd
    obtain ⟨x, hx, rfl⟩ := List.mem_map.mp hd
    exact hnodup x hx
  have hfl : ∀ d ∈ (contributingDirs fsDir agentsPaths resource).map Prod.snd,
      ∀ e, lookupE d n = some e → ∃ c, e = FsEntry.file c := by
    intro d hd
    obtain ⟨x, hx, rfl⟩ := List.mem_map.mp hd
    exact hfile x hx
  refine ⟨?_, ?_, ?_⟩
  · rcases hds : contributingDirs fsDir agentsPaths resource with _ | ⟨d1, _ | ⟨d2, rest⟩⟩
    · rw [hds] at h2; simp at h2
    · rw [hds] at h2; simp at h2
    · simp [mergeDirectoryChain, hds]
  · rw [lookupE_extendFold_none_iff _ _ hnd n]
    simp [lookupE]
    exact ⟨fun h a b hab => h b a hab, fun h d x hxd => h x d hxd⟩
  · rw [lookupE_extendFold_files _ _ n hnd hfl]
    cases h : chainLookup ((contributingDirs fsDir agentsPaths resource).map Prod.snd) n <;>
      simp [lookupE]

/-- Witness for C1 (amended) on the concrete two-node chain with flat
`commands` directories colliding on `both.md`: the merge directory is
synthesized at `/a/.agents/merged/commands` and `both.md` resolves to the
nearest (current) node's content. -/
theorem mergeDirectoryChain_extend_union_nearest_witness :
    (mergeDirectoryChain fsFlatCommands twoNodePaths ["a", ".agents"] "commands"
        .extend none []
      = some (["a", ".agents", "merged", "commands"],
          extendFold ((contributingDirs fsFlatCommands twoNodePaths "commands").map
            Prod.snd) []) ∧
    (lookupE (extendFold
        ((contributingDirs fsFlatCommands twoNodePaths "commands").map Prod.snd) [])
        "both.md" = none ↔
      ∀ d ∈ contributingDirs fsFlatCommands twoNodePaths "commands",
        lookupE d.2 "both.md" = none) ∧
    lookupE (extendFold
        ((contributingDirs fsFlatCommands twoNodePaths "commands").map Prod.snd) [])
        "both.md"
      = chainLookup ((contributingDirs fsFlatCommands twoNodePaths "commands").map
          Prod.snd) "both.md") ∧
    chainLookup ((contributingDirs fsFlatCommands twoNodePaths "commands").map
        Prod.snd) "both.md" = some (.file "cur") := by
  refine ⟨mergeDirectoryChain_extend_union_nearest fsFlatCommands twoNodePaths
    ["a", ".agents"] "commands" "both.md" (by decide) (by decide) ?_, ?_⟩
  · intro d hd e he
    simp only [contributingDirs, twoNodePaths, fsFlatCommands] at hd
    simp at hd
    rcases hd with rfl | rfl
    · simp [lookupE] at he
      exact ⟨"cur", he.symm⟩
    · simp [lookupE] at he
      exact ⟨"par", he.symm⟩
  · simp [contributingDirs, twoNodePaths, fsFlatCommands, chainLookup, lookupE]

/-- C2: evaluating the extend merge at the failing input — a merge directory
left over from a previous resolution containing `stale.md` — shows that the
resolution does not delete the merge output first: the synthesized directory
still contains the stale entry.  `cleanMergedDir` exists in `src/core/merge.ts`
but is never invoked by `mergeDirectoryChain` or `getMonorepoMappings`. -/
theorem mergeDirectoryChain_extend_keeps_stale_entries :
    (mergeDirectoryChain fsFlatCommands twoNodePaths ["a", ".agents"] "commands"
        .extend none [("stale.md", .file "old")]).map
      (fun r => (r.1, lookupE r.2 "stale.md"))
      = some (["a", ".agents", "merged", "commands"], some (FsEntry.file "old")) := by
  simp [mergeDirectoryChain, contributingDirs, fsFlatCommands, twoNodePaths,
    extendFold, copyDirectoryContents, setEntry, subEntries, lookupE]

/-- C3: with `extends: { commands: compose, default: inherit }` and
`include: { commands: [build.md] }`, an ancestor `commands` containing
`build.md` and `deploy.md`, and a current `commands` containing `local.md`,
resolving `commands` synthesizes a merge directory containing exactly
`build.md` and `local.md` and not `deploy.md`. -/
theorem mergeDirectoryChain_compose_scenario :
    getExtendBehavior cfgCompose "commands" = .compose ∧
    getIncludeList cfgCompose "commands" = some ["build.md"] ∧
    mergeDirectoryChain fsComposeScenario [["p", ".agents"], ["m", ".agents"]]
        ["p", ".agents"] "commands" (getExtendBehavior cfgCompose "commands")
        (getIncludeList cfgCompose "commands") []
      = some (["p", ".agents", "merged", "commands"],
          [("build.md", .file "B"), ("local.md", .file "L")]) ∧
    lookupE [("build.md", FsEntry.file "B"), ("local.md", FsEntry.file "L")]
        "deploy.md" = none := by
  refine ⟨by simp [getExtendBehavior, cfgCompose, List.lookup],
    by simp [getIncludeList, cfgCompose, List.lookup], ?_, by simp [lookupE]⟩
  simp [mergeDirectoryChain, getExtendBehavior, getIncludeList, cfgCompose,
    List.lookup, mergeCompose, fsComposeScenario, findIncludedItem,
    endsWithSlash, dropLastChar, copyDirectoryContents, setEntry, subEntries,
    lookupE]

/-- Lemma: a mapping emitted for a directory resource carries that resource's
name. -/
theorem mem_dirMappingOf {m : Mapping} {nm : String}
    {src? : Option (FsPath × List (String × FsEntry))} {targets : List FsPath}
    (h : m ∈ dirMappingOf nm src? targets) : m.name = nm := by
  cases src? with
  | none => simp [dirMappingOf] at h
  | some p =>
    obtain ⟨q, es⟩ := p
    simp [dirMappingOf] at h
    rw [h]

/-- Lemma: under the claude override, the instructions block of the monorepo
mapping builder emits at most the `claude-md` mapping. -/
theorem mem_monorepoAgentsMd_claude {m : Mapping} {roots : ResolvedRoots}
    {clients : List Client} {src : FsPath}
    (hclaude : src.getLast? = some "CLAUDE.md")
    (h : m ∈ monorepoAgentsMdMappings roots clients (some src)) :
    m = ⟨"claude-md", src, [roots.claudeRoot ++ ["CLAUDE.md"]], .file⟩ := by
  simp [monorepoAgentsMdMappings, hclaude] at h
  by_cases hc : Client.claude ∈ clients
  · simpa [hc] using h
  · simp [hc] at h

/-- C4: whenever the resolved instructions-file source has the strictly
prioritized basename `CLAUDE.md`, the claude client's mapping targets that
source verbatim and no `agents-md` mapping is emitted for the remaining
clients (no lower-priority file was resolved); in the single-root builder,
where `CLAUDE.md` exists at the canonical root, the claude client receives it
verbatim while the `agents-md` mapping carries the `AGENTS.md` path to every
remaining requested client (factory, codex, opencode). -/
theorem instructionsMapping_claude_override (fsFile : FsPath → Option String)
    (fsDir : FsPath → Option (List (String × FsEntry))) (roots : ResolvedRoots)
    (chain : InheritanceChain) (config : MonorepoConfig) (clients : List Client)
    (mergedInit : String → List (String × FsEntry))
    (first : FsPath) (rest : List FsPath) (src canonical : FsPath)
    (hchain : getEffectiveChain chain = first :: rest)
    (hsrc : mergeAgentsMd fsFile (first :: rest) (chain.current.getD first)
      (getExtendBehavior config "AGENTS.md") = some src)
    (hclaude : src.getLast? = some "CLAUDE.md")
    (hcl : (fsFile (canonical ++ ["CLAUDE.md"])).isSome = true) :
    (Client.claude ∈ clients →
      (⟨"claude-md", src, [roots.claudeRoot ++ ["CLAUDE.md"]], .file⟩ : Mapping)
        ∈ getMonorepoMappings fsFile fsDir roots chain config clients mergedInit) ∧
    (∀ m ∈ getMonorepoMappings fsFile fsDir roots chain config clients mergedInit,
      m.name ≠ "agents-md") ∧
    (Client.claude ∈ clients →
      (⟨"claude-md", canonical ++ ["CLAUDE.md"],
          [roots.claudeRoot ++ ["CLAUDE.md"]], .file⟩ : Mapping)
        ∈ getMappings fsFile .global canonical roots clients) ∧
    (agentsMdTargets roots clients ≠ [] →
      (⟨"agents-md", canonical ++ ["AGENTS.md"], agentsMdTargets roots clients,
          .file⟩ : Mapping)
        ∈ getMappings fsFile .global canonical roots clients) ∧
    (Client.factory ∈ clients →
      roots.factoryRoot ++ ["AGENTS.md"] ∈ agentsMdTargets roots clients) ∧
    (Client.codex ∈ clients →
      roots.codexRoot ++ ["AGENTS.md"] ∈ agentsMdTargets roots clients) ∧
    (Client.opencode ∈ clients →
      roots.opencodeConfigRoot ++ ["AGENTS.md"] ∈ agentsMdTargets roots clients) := by
  have hmono : getMonorepoMappings fsFile fsDir roots chain config clients mergedInit
      = monorepoAgentsMdMappings roots clients (some src)
        ++ dirMappingOf "commands"
            (mergeDirectoryChain fsDir (first :: rest) (chain.current.getD first)
              "commands" (getExtendBehavior config "commands")
              (if getExtendBehavior config "commands" = .compose then
                getIncludeList config "commands" else none)
              (mergedInit "commands"))
            (commandsTargets roots clients)
        ++ dirMappingOf "hooks"
            (mergeDirectoryChain fsDir (first :: rest) (chain.current.getD first)
              "hooks" (getExtendBehavior config "hooks")
              (if getExtendBehavior config "hooks" = .compose then
                getIncludeList config "hooks" else none)
              (mergedInit "hooks"))
            (hooksTargets roots clients)
        ++ dirMappingOf "skills"
            (mergeDirectoryChain fsDir (first :: rest) (chain.current.getD first)
              "skills" (getExtendBehavior config "skills")
              (if getExtendBehavior config "skills" = .compose then
                getIncludeList config "skills" else none)
              (mergedInit "skills"))
            (skillsTargets roots clients) := by
    rw [getMonorepoMappings, hchain]
    simp only [hsrc]
  refine ⟨?_, ?_, ?_, ?_, ?_, ?_, ?_⟩
  · intro hc
    rw [hmono]
    refine List.mem_append.mpr (Or.inl (List.mem_append.mpr (Or.inl
      (List.mem_append.mpr (Or.inl ?_)))))
    simp [monorepoAgentsMdMappings, hc]
  · intro m hm
    rw [hmono] at hm
    rcases List.mem_append.mp hm with hm | hm
    · rcases List.mem_append.mp hm with hm | hm
      · rcases List.mem_append.mp hm with hm | hm
        · rw [mem_monorepoAgentsMd_claude hclaude hm]
          show ("claude-md" : String) ≠ "agents-md"
          decide
        · rw [mem_dirMappingOf hm]
          decide
      · rw [mem_dirMappingOf hm]
        decide
    · rw [mem_dirMappingOf hm]
      decide
  · intro hc
    rw [getMappings]
    simp only [hcl]
    refine List.mem_append.mpr (Or.inl (List.mem_append.mpr (Or.inl ?_)))
    simp [hc]
  · intro hts
    rw [getMappings]
    refine List.mem_append.mpr (Or.inl (List.mem_append.mpr (Or.inr ?_)))
    cases hta : agentsMdTargets roots clients with
    | nil => exact absurd hta hts
    | cons t ts =>
      rw [← hta]
      simp [hta]
  · intro hc
    simp [agentsMdTargets, hc]
  · intro hc
    simp [agentsMdTargets, hc]
  · intro hc
    simp [agentsMdTargets, hc]

/-- Witness for C4: a single-node chain whose root holds only `CLAUDE.md`,
with all five clients requested. -/
theorem instructionsMapping_claude_override_witness :
    (Client.claude ∈ allClients →
      (⟨"claude-md", ["proj", ".agents", "CLAUDE.md"],
          [sampleRoots.claudeRoot ++ ["CLAUDE.md"]], .file⟩ : Mapping)
        ∈ getMonorepoMappings fsClaudeOnly noDirs sampleRoots chainCurrentOnly
            emptyConfig allClients emptyMergedInit) ∧
    (∀ m ∈ getMonorepoMappings fsClaudeOnly noDirs sampleRoots chainCurrentOnly
        emptyConfig allClients emptyMergedInit, m.name ≠ "agents-md") ∧
    (Client.claude ∈ allClients →
      (⟨"claude-md", ["proj", ".agents"] ++ ["CLAUDE.md"],
          [sampleRoots.claudeRoot ++ ["CLAUDE.md"]], .file⟩ : Mapping)
        ∈ getMappings fsClaudeOnly .global ["proj", ".agents"] sampleRoots allClients) ∧
    (agentsMdTargets sampleRoots allClients ≠ [] →
      (⟨"agents-md", ["proj", ".agents"] ++ ["AGENTS.md"],
          agentsMdTargets sampleRoots allClients, .file⟩ : Mapping)
        ∈ getMappings fsClaudeOnly .global ["proj", ".agents"] sampleRoots allClients) ∧
    (Client.factory ∈ allClients →
      sampleRoots.factoryRoot ++ ["AGENTS.md"] ∈ agentsMdTargets sampleRoots allClients) ∧
    (Client.codex ∈ allClients →
      sampleRoots.codexRoot ++ ["AGENTS.md"] ∈ agentsMdTargets sampleRoots allClients) ∧
    (Client.opencode ∈ allClients →
      sampleRoots.opencodeConfigRoot ++ ["AGENTS.md"]
        ∈ agentsMdTargets sampleRoots allClients) := by
  have h := instructionsMapping_claude_override fsClaudeOnly noDirs sampleRoots
    chainCurrentOnly emptyConfig allClients emptyMergedInit
    ["proj", ".agents"] [] ["proj", ".agents", "CLAUDE.md"] ["proj", ".agents"]
    (by decide) (by decide) (by decide) (by decide)
  simpa using h

/-- Lemma: a path with a real node passes the existence probe. -/
theorem pathExistsL_real {fs : LinkFs} {p : FsPath} {c : String}
    (h : lookupNode fs p = some (.real c)) : pathExistsL fs p = true := by
  simp [pathExistsL, resolvesReal, h]

/-- Lemma: a symlink to a path with a real node passes the (link-following)
existence probe. -/
theorem pathExistsL_symlink {fs : LinkFs} {t s : FsPath} {c : String}
    (h1 : lookupNode fs t = some (.symlink s))
    (h2 : lookupNode fs s = some (.real c)) : pathExistsL fs t = true := by
  have hne : fs ≠ [] := by
    intro hnil
    rw [hnil] at h1
    simp [lookupNode] at h1
  obtain ⟨q, rest, rfl⟩ : ∃ q rest, fs = q :: rest := by
    cases fs with
    | nil => exact absurd rfl hne
    | cons q rest => exact ⟨q, rest, rfl⟩
  simp [pathExistsL, resolvesReal, h1, h2]

/-- Lemma: on a target that is already a symlink resolving to an existing
source, `ensureSymlink` is a pure no-op returning `skipped`. -/
theorem ensureSymlink_noop {fs : LinkFs} {s t : FsPath} {c : String}
    (h1 : lookupNode fs t = some (.symlink s))
    (h2 : lookupNode fs s = some (.real c)) (k : SourceKind) :
    ensureSymlink fs s t k = (.skipped, fs) := by
  rw [ensureSymlink]
  rw [pathExistsL_real h2, pathExistsL_symlink h1 h2]
  simp [h1]

/-- Lemma: the target loop of `repair` over already-linked targets only
increments `skipped` and leaves the filesystem untouched. -/
theorem repairTargets_noop (fs : LinkFs) (s : FsPath) (k : SourceKind)
    (ts : List FsPath)
    (h : ∀ t ∈ ts, ∃ c, lookupNode fs t = some (.symlink s) ∧
      lookupNode fs s = some (.real c)) :
    ∀ c0 : RepairCounts, ts.foldl (repairStep s k) (c0, fs)
      = ({ c0 with skipped := c0.skipped + ts.length }, fs) := by
  induction ts with
  | nil =>
    intro c0
    obtain ⟨cc, cu, cs, ce⟩ := c0
    simp
  | cons t ts ih =>
    intro c0
    obtain ⟨c, hc1, hc2⟩ := h t (by simp)
    rw [List.foldl_cons, repairStep]
    simp only [ensureSymlink_noop hc1 hc2 k]
    rw [ih (fun t' ht' => h t' (List.mem_cons_of_mem _ ht'))]
    obtain ⟨cc, cu, cs, ce⟩ := c0
    simp [Nat.add_assoc, Nat.add_comm 1]

/-- Lemma: `repair` over a target set in which every target already links to
its mapping's existing source counts everything as skipped and performs no
filesystem mutation, from any starting counts. -/
theorem repairRun_noop_aux (mappings : List Mapping) (fs : LinkFs)
    (h : ∀ m ∈ mappings, ∀ t ∈ m.targets,
      ∃ c, lookupNode fs t = some (.symlink m.source) ∧
        lookupNode fs m.source = some (.real c)) :
    ∀ c0 : RepairCounts,
      mappings.foldl
        (fun acc m => m.targets.foldl (repairStep m.source m.kind) acc) (c0, fs)
      = ({ c0 with skipped :=
            c0.skipped + (mappings.map (fun m => m.targets.length)).sum }, fs) := by
  induction mappings with
  | nil =>
    intro c0
    obtain ⟨cc, cu, cs, ce⟩ := c0
    simp
  | cons m ms ih =>
    intro c0
    rw [List.foldl_cons,
      repairTargets_noop fs m.source m.kind m.targets (h m (by simp)) c0,
      ih (fun m' hm' => h m' (List.mem_cons_of_mem _ hm'))]
    obtain ⟨cc, cu, cs, ce⟩ := c0
    simp [Nat.add_assoc]

/-- C6: applying the repair pass over a target set in which every target is
already a symlink resolving to its mapping's (existing) source produces zero
`created`, zero `updated` and zero errors — every task is `skipped` — and
performs no filesystem mutation: repair is idempotent on a correctly linked
tree. -/
theorem repair_idempotent (mappings : List Mapping) (fs : LinkFs)
    (h : ∀ m ∈ mappings, ∀ t ∈ m.targets,
      ∃ c, lookupNode fs t = some (.symlink m.source) ∧
        lookupNode fs m.source = some (.real c)) :
    (repairRun mappings fs).1.created = 0 ∧
    (repairRun mappings fs).1.updated = 0 ∧
    (repairRun mappings fs).1.errors = [] ∧
    (repairRun mappings fs).1.skipped
      = (mappings.map (fun m => m.targets.length)).sum ∧
    (repairRun mappings fs).2 = fs := by
  rw [repairRun, repairRun_noop_aux mappings fs h ⟨0, 0, 0, []⟩]
  simp

/-- Witness for C6: one mapping with two already-linked targets in the
concrete link-state filesystem. -/
theorem repair_idempotent_witness :
    (repairRun [mappingLinked] fsLinkSample).1.created = 0 ∧
    (repairRun [mappingLinked] fsLinkSample).1.updated = 0 ∧
    (repairRun [mappingLinked] fsLinkSample).1.errors = [] ∧
    (repairRun [mappingLinked] fsLinkSample).1.skipped
      = ([mappingLinked].map (fun m => m.targets.length)).sum ∧
    (repairRun [mappingLinked] fsLinkSample).2 = fsLinkSample := by
  refine repair_idempotent [mappingLinked] fsLinkSample ?_
  intro m hm t ht
  simp only [List.mem_singleton] at hm
  subst hm
  simp only [mappingLinked] at ht ⊢
  simp at ht
  rcases ht with rfl | rfl <;>
    exact ⟨"data", by decide, by decide⟩

/-- C7: an existing target that is a real (non-symlink) file or directory is
classified `conflict` whatever its content — even content equal to the
source's — and an existing symlink target is classified `linked` exactly when
its resolved absolute destination equals the mapping's source (and the link
actually resolves). -/
theorem statusClassification_conflict_linked (fs : LinkFs)
    (source targetR targetS : FsPath) (c : String) (d : FsPath)
    (hreal : lookupNode fs targetR = some (.real c))
    (hsym : lookupNode fs targetS = some (.symlink d)) :
    classifyTarget fs source targetR = .conflict ∧
    (classifyTarget fs source targetS = .linked ↔
      d = source ∧ pathExistsL fs targetS = true) := by
  constructor
  · simp [classifyTarget, pathExistsL_real hreal, hreal]
  · by_cases he : pathExistsL fs targetS
    · by_cases hd : d = source <;> simp [classifyTarget, he, hsym, hd]
    · simp [classifyTarget, he]

/-- Witness for C7: in the concrete link-state filesystem, the real target
`treal` — whose content equals the source's — is a conflict, and the symlink
target `t1` is linked since it resolves to the source. -/
theorem statusClassification_conflict_linked_witness :
    classifyTarget fsLinkSample ["proj", "src"] ["proj", "treal"] = .conflict ∧
    (classifyTarget fsLinkSample ["proj", "src"] ["proj", "t1"] = .linked ↔
      ["proj", "src"] = ["proj", "src"] ∧
        pathExistsL fsLinkSample ["proj", "t1"] = true) :=
  statusClassification_conflict_linked fsLinkSample ["proj", "src"]
    ["proj", "treal"] ["proj", "t1"] "data" ["proj", "src"]
    (by decide) (by decide)

end Agentlink
